import Mathlib

/-!
Shallow embedding of `radio-host/pipeline.py` (content extraction, text
normalization, transcript parsing, LLM/TTS integration, audio stitching)
together with proofs about the claims on that pipeline.

Strings are modelled as `List Char`; `String` wrappers use `String.data`.
Python's `str.strip()` and the regex class `\s` are modelled over the six
ASCII whitespace characters (space, tab, newline, carriage return,
vertical tab, form feed), which is faithful for the ASCII texts the
pipeline manipulates.
-/

namespace RadioHost



/-- The regex class `\s` / `str.strip` whitespace (ASCII fragment). -/
def isWs (c : Char) : Bool :=
  c = ' ' || c = '\t' || c = '\n' || c = '\x0d' || c = '\x0b' || c = '\x0c'

/-- Regex class `[a-z]`. -/
def isLowerA (c : Char) : Bool := 'a' ≤ c && c ≤ 'z'

/-- Regex class `[A-Z]`. -/
def isUpperA (c : Char) : Bool := 'A' ≤ c && c ≤ 'Z'

/-- Regex class `[A-Za-z]`. -/
def isLetterA (c : Char) : Bool := isUpperA c || isLowerA c

/-- Regex class `\d` (ASCII fragment). -/
def isDigitA (c : Char) : Bool := '0' ≤ c && c ≤ '9'

/-- Regex class `[.,;:]`. -/
def isPunctC (c : Char) : Bool := c = '.' || c = ',' || c = ';' || c = ':'

/-- Python `str.strip()` on character lists: drop whitespace from both ends. -/
def stripChars (l : List Char) : List Char :=
  ((l.dropWhile isWs).reverse.dropWhile isWs).reverse

/-- Python `str.strip()`. -/
def pyStrip (s : String) : String := ⟨stripChars s.data⟩

/-!
## Text Normalizer (`clean_wikipedia_text`)

The Python function applies six `re.sub` rewrites in order:
1. `re.sub(r"\[[^\]]*\]", "", text)`   (drop citation markers)
2. `re.sub(r"([a-z])([A-Z])", r"\1 \2", text)`
3. `re.sub(r"([.,;:])([A-Za-z])", r"\1 \2", text)`
4. `re.sub(r"([A-Za-z])(\d)", r"\1 \2", text)`
5. `re.sub(r"(\d)([A-Za-z])", r"\1 \2", text)`
6. `re.sub(r"\s+", " ", text)` followed by `.strip()`.
-/


/-- The suffix after the first `]`, if any: the regex `\[[^\]]*\]` anchored at a
`[` consumes greedily up to and including the first following `]`, and fails
when no `]` remains. -/
def findClose : List Char → Option (List Char)
  | [] => none
  | c :: cs => if c = ']' then some cs else findClose cs

/-- Rule 1, `re.sub(r"\[[^\]]*\]", "", text)`: repeatedly remove non-overlapping
bracketed citation markers, scanning left to right.  At a `[` the regex matches
through the first following `]` (there is no `]` among the consumed inner
characters); if no `]` follows, the match fails and the `[` is kept. -/
def remCite : List Char → List Char
  | [] => []
  | c :: cs =>
    if c = '[' then
      match h : findClose cs with
      | some rest => remCite rest
      | none => c :: remCite cs
    else c :: remCite cs
termination_by l => l.length
decreasing_by
  · have hlen : ∀ (l rest : List Char), findClose l = some rest → rest.length < l.length := by
      intro l
      induction l with
      | nil => intro rest hr; simp [findClose] at hr
      | cons a t ih =>
        intro rest hr
        by_cases ha : a = ']'
        · rw [findClose, if_pos ha] at hr
          injection hr with hr2
          subst hr2
          simp
        · rw [findClose, if_neg ha] at hr
          exact Nat.lt_succ_of_lt (ih rest hr)
    exact Nat.lt_succ_of_lt (hlen cs rest h)
  · simp
  · simp

/-- The scheme of rules 2-5: `re.sub` for the four pairwise insertion rules: insert `' '` between an
adjacent pair `(a, b)` with `p a` and `q b`.  For all four rules of the source
the classes `p` and `q` are disjoint, so the non-overlapping left-to-right
scan of `re.sub` coincides with this pairwise rewrite. -/
def insSpace (p q : Char → Bool) : List Char → List Char
  | [] => []
  | [a] => [a]
  | a :: b :: t =>
    if p a && q b then a :: ' ' :: insSpace p q (b :: t)
    else a :: insSpace p q (b :: t)

/-- Rule 6, `re.sub(r"\s+", " ", text)`: collapse every maximal whitespace run to one
space. -/
def collapseWs : List Char → List Char
  | [] => []
  | [c] => if isWs c then [' '] else [c]
  | c :: d :: t =>
    if isWs c then
      (if isWs d then collapseWs (d :: t) else ' ' :: collapseWs (d :: t))
    else c :: collapseWs (d :: t)

/-- The body of `clean_wikipedia_text` on character lists: the six rewrites in source
order. -/
def cleanChars (l : List Char) : List Char :=
  stripChars (collapseWs (insSpace isDigitA isLetterA (insSpace isLetterA isDigitA
    (insSpace isPunctC isLetterA (insSpace isLowerA isUpperA (remCite l))))))

/-- The function `clean_wikipedia_text` from `pipeline.py`. -/
def clean_wikipedia_text (s : String) : String := ⟨cleanChars s.data⟩

/-!
### Idempotence machinery: citation brackets

After rule 1 has run, no surviving `[` is followed by a surviving `]`, so the
pattern `\[[^\]]*\]` can never match again; the later rules only insert or
delete whitespace, which preserves the bracket subsequence.
-/


/-- Bracket characters. -/
def isBr (c : Char) : Bool := c = '[' || c = ']'

/-- Predicate `noRb l`: the list contains no `]`. -/
def noRb : List Char → Bool
  | [] => true
  | c :: cs => if c = ']' then false else noRb cs

/-- Predicate `noCite l`: no `[` in `l` is followed (anywhere later) by a `]`, i.e. the
citation regex has no match in `l`. -/
def noCite : List Char → Bool
  | [] => true
  | c :: cs => if c = '[' then noRb cs else noCite cs

/-!
### Idempotence machinery: adjacent pairs

`NoPair p q l` says no adjacent pair `(a, b)` of `l` has `p a` and `q b`:
exactly the condition under which the corresponding insertion rule is the
identity.  Each insertion rule establishes its own `NoPair` and, since a space
belongs to none of the character classes, every later rule preserves it.
-/


/-- No adjacent pair of `l` matches `(p, q)`. -/
def NoPair (p q : Char → Bool) (l : List Char) : Prop :=
  List.Chain' (fun a b => ¬(p a = true ∧ q b = true)) l

/-!
## Transcript Parser (`parse_conversation`)

The Python function is

```
turns = []
for line in script.strip().split("\n"):
    line = line.strip()
    if not line: continue
    match = re.match(r"(Speaker\s*[12]):\s*(.+)", line, re.IGNORECASE)
    if not match: continue
    speaker_raw, text = match.groups()
    speaker_id = "speaker1" if "1" in speaker_raw else "speaker2"
    turns.append((speaker_id, text.strip()))
```

The regex is embedded step by step.  `Speaker` matches seven characters
case-insensitively; `\s*` before `[12]` is greedy and needs no backtracking
because whitespace is disjoint from digits; after the colon, `\s*(.+)` either
captures the whitespace-trimmed-on-the-left remainder (when something
non-whitespace remains) or backtracks so that `.+` captures just the final
character (when the remainder is pure whitespace).  Lines produced by
`split("\n")` contain no newline, so `.` ranges over the whole remainder.
-/


/-- Python `split("\n")` on character lists. -/
def splitNl : List Char → List (List Char)
  | [] => [[]]
  | c :: cs =>
    if c = '\n' then [] :: splitNl cs
    else (c :: (splitNl cs).headD []) :: (splitNl cs).tail

/-- Case-insensitive literal matching: `matchCaseless pat l` returns the
matched prefix of `l` (in original case) and the remainder when the first
`pat.length` characters of `l` lowercase to `pat`. -/
def matchCaseless : List Char → List Char → Option (List Char × List Char)
  | [], rest => some ([], rest)
  | _ :: _, [] => none
  | pc :: ps, c :: cs =>
    if c.toLower = pc then
      (matchCaseless ps cs).map (fun pr => (c :: pr.1, pr.2))
    else none

/-- One line of `parse_conversation`: strip, then apply the regex
`(Speaker\s*[12]):\s*(.+)` (IGNORECASE) and build the turn. -/
def parseLine (line : List Char) : Option (String × String) :=
  match matchCaseless "speaker".data (stripChars line) with
  | none => none
  | some (m1, r1) =>
    let wsRun := r1.takeWhile isWs
    match r1.dropWhile isWs with
    | [] => none
    | d :: r3 =>
      if d = '1' ∨ d = '2' then
        match r3 with
        | [] => none
        | c3 :: r4 =>
          if c3 = ':' then
            match r4 with
            | [] => none
            | e :: r5 =>
              let t := (e :: r5).dropWhile isWs
              let g2 := if t.isEmpty then [(e :: r5).getLastD ' '] else t
              let g1 := m1 ++ wsRun ++ [d]
              some (if '1' ∈ g1 then "speaker1" else "speaker2", ⟨stripChars g2⟩)
          else none
      else none

/-- The function `parse_conversation` from `pipeline.py`. -/
def parse_conversation (script : String) : List (String × String) :=
  (splitNl (stripChars script.data)).filterMap parseLine

/-- Claim-side line matcher, following the words of the spec: the (trimmed)
line must start with `Speaker` (case-insensitive), then optional whitespace,
then `1` or `2`, then a colon, then at least one more character; the utterance
is the trimmed remainder and the digit decides the speaker id. -/
def specLine (line : List Char) : Option (String × String) :=
  let l := stripChars line
  if (l.take 7).map Char.toLower = "speaker".data then
    match (l.drop 7).dropWhile isWs with
    | d :: rest =>
      if d = '1' ∨ d = '2' then
        match rest with
        | [] => none
        | c3 :: tail =>
          if c3 = ':' then
            if tail.isEmpty then none
            else some (if d = '1' then "speaker1" else "speaker2", ⟨stripChars tail⟩)
          else none
      else none
    | [] => none
  else none

/-- Claim-side parser: the ordered turns of all matching lines of the script,
in order, with non-matching lines silently dropped. -/
def specParse (script : String) : List (String × String) :=
  (splitNl script.data).filterMap specLine

/-!
### Outer strip invariance

`parse_conversation` strips the whole script before splitting; the claim-side
parser splits the raw script.  Both agree because whitespace-only line
fragments produce no turn and each line is stripped anyway.
-/


/-- Append one character to the last chunk. -/
def addLast (c : Char) : List (List Char) → List (List Char)
  | [] => [[c]]
  | [l] => [l ++ [c]]
  | l :: ls => l :: addLast c ls

/-!
## Voice map and parser-output safety
-/


/-- The constant `VOICE_MAP` from `pipeline.py`: the process-wide speaker-to-voice map. -/
def VOICE_MAP : List (String × String) :=
  [("speaker1", "3AMU7jXQuQa3oRvRqUmb"), ("speaker2", "OtEfb2LVzIE45wdYe54M")]

/-!
## Content Extractor (`extract_headings`, `extract_combined_content`)

A parsed Wikipedia document is modelled as the ordered list of its `h1`, `h2`
and `p` elements — exactly the elements `soup.find_all(["h1", "h2", "p"])`
iterates over.  `Node.txt` models the element's text as seen both by
`get_text(strip=True)` and by BeautifulSoup `string=` filters; `Node.idAttr`
models the `id` attribute.  BeautifulSoup compares `Tag` objects
structurally (same name, attributes and contents), so node comparison in the
scan loop is modelled by equality of `Node` values, and `soup.find` returns
the first matching node value.
-/

inductive Tag where
  | h1
  | h2
  | p
deriving DecidableEq

inductive HLevel where
  | H1
  | H2
deriving DecidableEq

/-- The element name `"h1"`/`"h2"` a heading level selects. -/
def levelTag : HLevel → Tag
  | .H1 => .h1
  | .H2 => .h2

structure Node where
  tag : Tag
  txt : String
  idAttr : Option String := none
deriving DecidableEq

/-- The test `tag.name in ["h1", "h2"]`. -/
def isHeadingTag (t : Tag) : Bool := decide (t = Tag.h1 ∨ t = Tag.h2)

/-- The lookup `soup.find("h1", ...)` selecting the first h1 element whose id attribute is `firstHeading`. -/
def findFirstHeadingH1 (doc : List Node) : Option Node :=
  doc.find? (fun n => decide (n.tag = Tag.h1 ∧ n.idAttr = some "firstHeading"))

/-- The test `if text and text != "Contents"`. -/
def h2Ok (s : String) : Bool := decide (s ≠ "" ∧ s ≠ "Contents")

/-- The `for h2 in h2_tags` loop of `extract_headings`, carried out on the
accumulated headings list. -/
def extractHeadingsGo : List (HLevel × String) → List Node → List (HLevel × String)
  | acc, [] => acc
  | acc, n :: ns =>
    if acc.length ≥ 3 then acc
    else if h2Ok n.txt then extractHeadingsGo (acc ++ [(HLevel.H2, n.txt)]) ns
    else extractHeadingsGo acc ns

/-- The function `extract_headings` from `pipeline.py`. -/
def extract_headings (doc : List Node) : List (HLevel × String) :=
  extractHeadingsGo
    (match findFirstHeadingH1 doc with
     | some n => [(HLevel.H1, n.txt)]
     | none => [])
    (doc.filter (fun n => decide (n.tag = Tag.h2)))

/-- The lookup `soup.find(level, string=title)`: the first node of the heading's level
whose text is the heading's title. -/
def findHeadingNode (doc : List Node) (h : HLevel × String) : Option Node :=
  doc.find? (fun n => decide (n.tag = levelTag h.1 ∧ n.txt = h.2))

/-- The scan loop of `extract_combined_content`: the Boolean is the `started`
flag.  A node equal to `start_node` always flips the flag and is skipped; once
started, a heading different from both boundary nodes breaks the loop, the
end node itself is passed over, and long paragraphs are collected. -/
def collectContent (startN endN : Node) : Bool → List Node → List String
  | _, [] => []
  | started, n :: ns =>
    if n = startN then collectContent startN endN true ns
    else if started then
      if isHeadingTag n.tag then
        (if n = endN then collectContent startN endN true ns else [])
      else
        if n.txt.length > 50 then n.txt :: collectContent startN endN true ns
        else collectContent startN endN true ns
    else collectContent startN endN false ns

/-- The function `extract_combined_content` from `pipeline.py`. -/
def extract_combined_content (doc : List Node) (headings : List (HLevel × String)) :
    String :=
  match headings with
  | [] => ""
  | h0 :: hs =>
    match findHeadingNode doc h0, findHeadingNode doc ((h0 :: hs).getLastD h0) with
    | some startN, some endN =>
        String.intercalate "\n" (collectContent startN endN false doc)
    | _, _ => ""

/-- Everything after the first occurrence of `x` (empty if `x` is absent). -/
def dropThroughFirst (x : Node) : List Node → List Node
  | [] => []
  | n :: ns => if n = x then ns else dropThroughFirst x ns

/-- Paragraph filter of the claim: paragraph nodes with stripped text longer
than 50 characters contribute their text. -/
def paraFilter (n : Node) : Option String :=
  if n.tag = Tag.p ∧ n.txt.length > 50 then some n.txt else none

/-- Claim-side window, as the claim literally states it: paragraphs strictly
after the first Heading's node and before the first heading-level node that
is not the designated last Heading's node (a hard stop). -/
def claimWindowOrig (startN endN : Node) (doc : List Node) : List String :=
  ((dropThroughFirst startN doc).takeWhile
    (fun n => !(isHeadingTag n.tag && decide (n ≠ endN)))).filterMap paraFilter

/-- Amended claim-side window: heading nodes equal to either boundary node are
skipped rather than stopping collection; the hard stop is the first heading
node different from both. -/
def claimWindow (startN endN : Node) (doc : List Node) : List String :=
  ((dropThroughFirst startN doc).takeWhile
    (fun n => !(isHeadingTag n.tag && decide (n ≠ startN) && decide (n ≠ endN)))).filterMap
    paraFilter

/-- A 51-character paragraph text (passes the `> 50` filter). -/
def paraA : String := "aaaaaaaaaaaaaaaaaaaaaaaaaaaaaaaaaaaaaaaaaaaaaaaaaaa"

/-- Another 51-character paragraph text. -/
def paraB : String := "bbbbbbbbbbbbbbbbbbbbbbbbbbbbbbbbbbbbbbbbbbbbbbbbbbb"

/-- A document whose page-title heading occurs twice: the scan loop skips the
duplicate instead of stopping at it. -/
def docDup : List Node :=
  [⟨Tag.h1, "T", some "firstHeading"⟩, ⟨Tag.p, paraA, none⟩,
   ⟨Tag.h1, "T", some "firstHeading"⟩, ⟨Tag.p, paraB, none⟩,
   ⟨Tag.h2, "X", none⟩, ⟨Tag.h2, "Z", none⟩]

/-- A document with subsection headings but no page-title element. -/
def docNoTitle : List Node :=
  [⟨Tag.h2, "History", none⟩, ⟨Tag.p, paraA, none⟩]

/-- A small well-behaved document used for witnesses. -/
def docPlain : List Node :=
  [⟨Tag.h1, "T", some "firstHeading"⟩, ⟨Tag.p, paraA, none⟩, ⟨Tag.h2, "S", none⟩]

/-!
## Script Generator and Speech Synthesizer
(`generate_script_from_content`, `tts_turn_elevenlabs`)

The remote services are abstracted as oracles from requests to responses, and
`os.getenv(...)` as an `Option String`.  Each function returns, alongside its
result, the list of remote requests it submitted, in order — an empty list
means no network call was constructed or attempted.  Python's falsy test
(`if not KEY`) treats both an unset and an empty credential as absent.
Sampling and voice parameters are exact decimal literals, modelled in `ℚ`.
-/

structure LLMRequest where
  model : String
  userMessage : String
  temperature : ℚ
deriving DecidableEq

/-- The function `generate_script_from_content` from `pipeline.py`: build the prompt
(`f"{prompt_template}\n\nContent:\n{clean_content}"` when a template is
truthy, else `f"Content:\n{clean_content}"`), submit one chat-completion
request with a single user message at temperature 0.6, and return the
response text stripped. -/
def generate_script_from_content (apiKey : Option String)
    (llm : LLMRequest → String) (clean_content : String)
    (prompt_template : Option String) : Except String String × List LLMRequest :=
  if apiKey = none ∨ apiKey = some "" then
    (Except.error "OPENAI_API_KEY not set", [])
  else
    let PROMPT :=
      match prompt_template with
      | none => "Content:\n" ++ clean_content
      | some t =>
        if t = "" then "Content:\n" ++ clean_content
        else t ++ "\n\nContent:\n" ++ clean_content
    let req : LLMRequest := ⟨"gpt-5.2", PROMPT, (0.6 : ℚ)⟩
    (Except.ok (pyStrip (llm req)), [req])

structure TTSRequest where
  voiceId : String
  text : String
  modelId : String
  stability : ℚ
  similarityBoost : ℚ
deriving DecidableEq

structure TTSResponse where
  statusCode : Nat
  body : String
  audioMs : Nat

/-- The function `tts_turn_elevenlabs` from `pipeline.py`: resolve the voice id from
`VOICE_MAP`, post the text with fixed model id and voice settings, raise on
a non-200 status, and decode the returned audio (modelled by its duration in
milliseconds). -/
def tts_turn_elevenlabs (apiKey : Option String) (net : TTSRequest → TTSResponse)
    (text : String) (speaker_id : String) : Except String Nat × List TTSRequest :=
  if apiKey = none ∨ apiKey = some "" then
    (Except.error "ELEVENLABS_API_KEY not set", [])
  else
    match VOICE_MAP.lookup speaker_id with
    | none => (Except.error "KeyError", [])
    | some voice_id =>
      let req : TTSRequest := ⟨voice_id, text, "eleven_v3", (0.5 : ℚ), (0.75 : ℚ)⟩
      let resp := net req
      if resp.statusCode ≠ 200 then (Except.error "ElevenLabs TTS failed", [req])
      else (Except.ok resp.audioMs, [req])

/-!
## Audio Stitcher (`natural_pause_ms`, `stitch_conversation_elevenlabs`)

pydub audio is raw sample data: a track is modelled as the list of its
segments, a zero-length silence is the empty track, and `+` is concatenation.
`random.choice` is modelled by an oracle giving the chosen index for each
call; the stitcher makes one call per inter-turn gap.  Speech synthesis is
abstracted as a function from (speaker, text) to the synthesized segment's
duration: a failing synthesis call raises and aborts the whole stitch, which
is outside the successful-track shape described here.
-/

inductive Piece where
  | speech (speaker text : String) (ms : Nat)
  | silence (ms : Nat)
deriving DecidableEq

def pieceMs : Piece → Nat
  | .speech _ _ ms => ms
  | .silence ms => ms

def isSpeech : Piece → Bool
  | .speech _ _ _ => true
  | .silence _ => false

def isSilence : Piece → Bool
  | .speech _ _ _ => false
  | .silence _ => true

/-- The constructor `AudioSegment.silent(ms)`. -/
def silent (ms : Nat) : List Piece := if ms = 0 then [] else [Piece.silence ms]

/-- Total duration of a track. -/
def trackMs (t : List Piece) : Nat := (t.map pieceMs).sum

/-- The function `natural_pause_ms`: `random.choice([200, 250, 300, 350, 400])`, with the
random draw supplied as an index. -/
def natural_pause_ms (choice : Fin 5) : Nat := [200, 250, 300, 350, 400].get choice

/-- The loop of `stitch_conversation_elevenlabs`: `i` is the `enumerate`
index; a pause follows every segment except the last (`i < len(turns) - 1`
holds exactly when turns remain). -/
def stitchGo (tts : String → String → Nat) (rand : Nat → Fin 5) :
    Nat → List (String × String) → List Piece
  | _, [] => []
  | i, (speaker, text) :: rest =>
    Piece.speech speaker text (tts speaker text) ::
      (if rest = [] then []
       else silent (natural_pause_ms (rand i)) ++ stitchGo tts rand (i + 1) rest)

/-- The function `stitch_conversation_elevenlabs` from `pipeline.py`. -/
def stitch_conversation_elevenlabs (tts : String → String → Nat)
    (rand : Nat → Fin 5) (turns : List (String × String)) : List Piece :=
  silent 0 ++ stitchGo tts rand 0 turns

/-- Claim-side arrangement of a track: the segments interleaved with one
pause between each adjacent pair — `seg₀, pause₀, seg₁, pause₁, …, segₙ` —
with no pause before the first segment or after the last.  (The fallback
case for more segments than pauses is unreachable when, as in the claim, the
pause list has one entry per adjacent segment pair.) -/
def weave : List Piece → List Piece → List Piece
  | [], _ => []
  | [s], _ => [s]
  | s :: ss, p :: ps => s :: p :: weave ss ps
  | s :: s' :: ss, [] => s :: s' :: ss

/-! ## Theorems -/

theorem isWs_space : isWs ' ' = true := by decide

theorem ws_cases {c : Char} (h : isWs c = true) :
    c = ' ' ∨ c = '\t' ∨ c = '\n' ∨ c = '\x0d' ∨ c = '\x0b' ∨ c = '\x0c' := by
  simp only [isWs, Bool.or_eq_true, decide_eq_true_eq] at h
  tauto

theorem isWs_not_lower {c : Char} (h : isWs c = true) : isLowerA c = false := by
  rcases ws_cases h with rfl | rfl | rfl | rfl | rfl | rfl <;> decide

theorem isWs_not_upper {c : Char} (h : isWs c = true) : isUpperA c = false := by
  rcases ws_cases h with rfl | rfl | rfl | rfl | rfl | rfl <;> decide

theorem isWs_not_letter {c : Char} (h : isWs c = true) : isLetterA c = false := by
  rcases ws_cases h with rfl | rfl | rfl | rfl | rfl | rfl <;> decide

theorem isWs_not_digit {c : Char} (h : isWs c = true) : isDigitA c = false := by
  rcases ws_cases h with rfl | rfl | rfl | rfl | rfl | rfl <;> decide

theorem isWs_not_punct {c : Char} (h : isWs c = true) : isPunctC c = false := by
  rcases ws_cases h with rfl | rfl | rfl | rfl | rfl | rfl <;> decide

/-- The head of `dropWhile p l`, when present, fails `p`. -/
theorem head_dropWhile_false {p : Char → Bool} {l : List Char} {c : Char}
    (h : (l.dropWhile p).head? = some c) : p c = false := by
  induction l with
  | nil => simp at h
  | cons a t ih =>
    by_cases hp : p a
    · rw [List.dropWhile_cons_of_pos hp] at h; exact ih h
    · rw [List.dropWhile_cons_of_neg hp] at h
      simp at h
      subst h
      exact Bool.eq_false_iff.mpr hp

/-- The function dropWhile is the identity when the head already fails the predicate. -/
theorem dropWhile_eq_self_of_head {p : Char → Bool} {l : List Char}
    (h : ∀ c, l.head? = some c → p c = false) : l.dropWhile p = l := by
  cases l with
  | nil => rfl
  | cons a t =>
    have := h a rfl
    rw [List.dropWhile_cons_of_neg (by simp [this])]

/-- A nonempty suffix has the same last element. -/
theorem getLast?_of_suffix {l' l : List Char} (h : l' <:+ l) (hne : l' ≠ []) :
    l'.getLast? = l.getLast? := by
  obtain ⟨w, rfl⟩ := h
  rw [List.getLast?_append]
  cases l' with
  | nil => exact absurd rfl hne
  | cons a t => simp [List.getLast?_cons]

theorem stripChars_getLast?_not_ws {l : List Char} {c : Char}
    (h : (stripChars l).getLast? = some c) : isWs c = false := by
  unfold stripChars at h
  rw [List.getLast?_reverse] at h
  exact head_dropWhile_false h

theorem stripChars_head?_not_ws {l : List Char} {c : Char}
    (h : (stripChars l).head? = some c) : isWs c = false := by
  unfold stripChars at h
  rw [List.head?_reverse] at h
  have hsuf : (l.dropWhile isWs).reverse.dropWhile isWs <:+ (l.dropWhile isWs).reverse :=
    List.dropWhile_suffix _
  have hne : (l.dropWhile isWs).reverse.dropWhile isWs ≠ [] := by
    intro hnil; rw [hnil] at h; simp at h
  rw [getLast?_of_suffix hsuf hne, List.getLast?_reverse] at h
  exact head_dropWhile_false h

/-- Stripping an already-stripped list does nothing. -/
theorem stripChars_idem (l : List Char) : stripChars (stripChars l) = stripChars l := by
  have h1 : (stripChars l).dropWhile isWs = stripChars l :=
    dropWhile_eq_self_of_head (fun _ hc => stripChars_head?_not_ws hc)
  have h2 : (stripChars l).reverse.dropWhile isWs = (stripChars l).reverse :=
    dropWhile_eq_self_of_head
      (fun _ hc => stripChars_getLast?_not_ws (by rwa [List.head?_reverse] at hc))
  calc stripChars (stripChars l)
      = (((stripChars l).dropWhile isWs).reverse.dropWhile isWs).reverse := rfl
    _ = ((stripChars l).reverse.dropWhile isWs).reverse := by rw [h1]
    _ = (stripChars l).reverse.reverse := by rw [h2]
    _ = stripChars l := List.reverse_reverse _

/-- Dropping a leading whitespace character commutes into `stripChars`. -/
theorem stripChars_cons_ws {c : Char} (hc : isWs c = true) (l : List Char) :
    stripChars (c :: l) = stripChars l := by
  unfold stripChars
  rw [List.dropWhile_cons_of_pos hc]

/-- The function dropWhile distributes over an append whose left part does not vanish. -/
theorem dropWhile_append_of_ne {p : Char → Bool} {l : List Char}
    (h : l.dropWhile p ≠ []) (l2 : List Char) :
    (l ++ l2).dropWhile p = l.dropWhile p ++ l2 := by
  induction l with
  | nil => exact absurd rfl h
  | cons a t ih =>
    by_cases ha : p a
    · rw [List.dropWhile_cons_of_pos ha] at h
      rw [List.cons_append, List.dropWhile_cons_of_pos ha, List.dropWhile_cons_of_pos ha, ih h]
    · rw [List.cons_append, List.dropWhile_cons_of_neg (by simp [ha]),
        List.dropWhile_cons_of_neg (by simp [ha]), List.cons_append]

/-- The function dropWhile skips over an append whose left part vanishes. -/
theorem dropWhile_append_of_nil {p : Char → Bool} {l : List Char}
    (h : l.dropWhile p = []) (l2 : List Char) :
    (l ++ l2).dropWhile p = l2.dropWhile p := by
  induction l with
  | nil => rfl
  | cons a t ih =>
    by_cases ha : p a
    · rw [List.dropWhile_cons_of_pos ha] at h
      rw [List.cons_append, List.dropWhile_cons_of_pos ha, ih h]
    · rw [List.dropWhile_cons_of_neg (by simp [ha])] at h
      exact absurd h (by simp)

/-- Dropping a trailing whitespace character commutes into `stripChars`. -/
theorem stripChars_append_ws {c : Char} (hc : isWs c = true) (l : List Char) :
    stripChars (l ++ [c]) = stripChars l := by
  by_cases h : l.dropWhile isWs = []
  · unfold stripChars
    rw [dropWhile_append_of_nil h, h, List.dropWhile_cons_of_pos hc]
    rfl
  · unfold stripChars
    rw [dropWhile_append_of_ne h, List.reverse_append, List.reverse_singleton,
      List.singleton_append, List.dropWhile_cons_of_pos hc]

/-- The function stripChars ignores leading whitespace already dropped. -/
theorem stripChars_dropWhile (l : List Char) :
    stripChars (l.dropWhile isWs) = stripChars l := by
  induction l with
  | nil => rfl
  | cons a t ih =>
    by_cases ha : isWs a
    · rw [List.dropWhile_cons_of_pos ha, ih, stripChars_cons_ws ha]
    · rw [List.dropWhile_cons_of_neg (by simp [ha])]

theorem findClose_none_iff {cs : List Char} : findClose cs = none ↔ ']' ∉ cs := by
  induction cs with
  | nil => simp [findClose]
  | cons a t ih =>
    by_cases ha : a = ']'
    · subst ha; simp [findClose]
    · rw [findClose, if_neg ha]
      simp [ih, Ne.symm ha, ha]

theorem noRb_iff {l : List Char} : noRb l = true ↔ ']' ∉ l := by
  induction l with
  | nil => simp [noRb]
  | cons a t ih =>
    by_cases ha : a = ']'
    · subst ha; simp [noRb]
    · rw [noRb, if_neg ha, ih]
      simp [Ne.symm ha]

theorem noRb_noCite {l : List Char} (h : noRb l = true) : noCite l = true := by
  induction l with
  | nil => rfl
  | cons a t ih =>
    by_cases hb : a = ']'
    · rw [noRb, if_pos hb] at h; cases h
    · rw [noRb, if_neg hb] at h
      rw [noCite]
      by_cases ha : a = '['
      · rw [if_pos ha]; exact h
      · rw [if_neg ha]; exact ih h

/-- The rewrite `remCite` only deletes characters. -/
theorem remCite_sublist (l : List Char) : List.Sublist (remCite l) l := by
  induction l using remCite.induct with
  | case1 => simp [remCite]
  | case2 cs rest h ih =>
    rw [remCite, if_pos rfl, h]
    refine ih.trans (List.Sublist.trans ?_ (List.sublist_cons_self '[' cs))
    clear ih
    induction cs with
    | nil => simp [findClose] at h
    | cons a t iht =>
      by_cases ha : a = ']'
      · rw [findClose, if_pos ha] at h
        injection h with h2
        subst h2
        exact List.sublist_cons_self _ _
      · rw [findClose, if_neg ha] at h
        exact (iht h).trans (List.sublist_cons_self a t)
  | case3 cs h ih =>
    rw [remCite, if_pos rfl, h]
    exact ih.cons₂ '['
  | case4 c cs h ih =>
    rw [remCite, if_neg h]
    exact ih.cons₂ c

/-- The output of rule 1 has no citation match left. -/
theorem noCite_remCite (l : List Char) : noCite (remCite l) = true := by
  induction l using remCite.induct with
  | case1 => simp [remCite]; rfl
  | case2 cs rest h ih => rw [remCite, if_pos rfl, h]; exact ih
  | case3 cs h ih =>
    rw [remCite, if_pos rfl, h, noCite, if_pos rfl, noRb_iff]
    intro hmem
    exact (findClose_none_iff.mp h) ((remCite_sublist cs).subset hmem)
  | case4 c cs h ih =>
    rw [remCite, if_neg h, noCite, if_neg h]
    exact ih

/-- Rule 1 is the identity on citation-free text. -/
theorem remCite_eq_self {l : List Char} (h : noCite l = true) : remCite l = l := by
  induction l with
  | nil => simp [remCite]
  | cons a t ih =>
    by_cases ha : a = '['
    · subst ha
      rw [noCite, if_pos rfl] at h
      rw [remCite, if_pos rfl]
      have hn : findClose t = none := findClose_none_iff.mpr (noRb_iff.mp h)
      rw [hn]
      rw [ih (noRb_noCite h)]
    · rw [noCite, if_neg ha] at h
      rw [remCite, if_neg ha, ih h]

/-- The predicate `noCite` only looks at the bracket subsequence. -/
theorem noCite_filter (l : List Char) : noCite (l.filter isBr) = noCite l := by
  have hrb : ∀ m : List Char, noRb (m.filter isBr) = noRb m := by
    intro m
    rw [Bool.eq_iff_iff, noRb_iff, noRb_iff]
    simp [List.mem_filter, isBr]
  induction l with
  | nil => rfl
  | cons a t ih =>
    by_cases ha : a = '['
    · subst ha
      rw [List.filter_cons_of_pos (by simp [isBr]), noCite, if_pos rfl, noCite, if_pos rfl]
      exact hrb t
    · by_cases hb : a = ']'
      · subst hb
        rw [List.filter_cons_of_pos (by simp [isBr]), noCite, if_neg (by decide),
          noCite, if_neg (by decide)]
        exact ih
      · rw [List.filter_cons_of_neg (by simp [isBr, ha, hb]), noCite, if_neg ha]
        exact ih

/-- The insertion rules do not change the bracket subsequence. -/
theorem filter_isBr_insSpace (p q : Char → Bool) (l : List Char) :
    (insSpace p q l).filter isBr = l.filter isBr := by
  induction l with
  | nil => rfl
  | cons a t ih =>
    cases t with
    | nil => rfl
    | cons b t' =>
      rw [insSpace]
      split <;> simp [List.filter_cons, ih, show isBr ' ' = false from rfl]

/-- Whitespace collapsing does not change the bracket subsequence. -/
theorem isBr_false_of_ws {c : Char} (h : isWs c = true) : isBr c = false := by
  rcases ws_cases h with rfl | rfl | rfl | rfl | rfl | rfl <;> decide

theorem filter_isBr_collapseWs (l : List Char) :
    (collapseWs l).filter isBr = l.filter isBr := by
  induction l with
  | nil => rfl
  | cons a t ih =>
    cases t with
    | nil =>
      by_cases ha : isWs a
      · rw [collapseWs, if_pos ha,
          List.filter_cons_of_neg (by simp [show isBr ' ' = false from rfl]),
          List.filter_cons_of_neg (by simp [isBr_false_of_ws ha])]
      · rw [collapseWs, if_neg ha]
    | cons b t' =>
      rw [collapseWs]
      by_cases ha : isWs a
      · rw [if_pos ha]
        by_cases hb : isWs b
        · rw [if_pos hb, List.filter_cons_of_neg (by simp [isBr_false_of_ws ha])]
          exact ih
        · rw [if_neg hb,
            List.filter_cons_of_neg (by simp [show isBr ' ' = false from rfl]),
            List.filter_cons_of_neg (by simp [isBr_false_of_ws ha])]
          exact ih
      · rw [if_neg ha]
        simp [List.filter_cons, ih]

/-- Dropping leading whitespace does not change the bracket subsequence. -/
theorem filter_isBr_dropWhile (l : List Char) :
    (l.dropWhile isWs).filter isBr = l.filter isBr := by
  induction l with
  | nil => rfl
  | cons a t ih =>
    by_cases ha : isWs a
    · have hbra : isBr a = false := by
        rcases ws_cases ha with rfl | rfl | rfl | rfl | rfl | rfl <;> decide
      rw [List.dropWhile_cons_of_pos ha, ih, List.filter_cons_of_neg (by simp [hbra])]
    · rw [List.dropWhile_cons_of_neg (by simp [ha])]

/-- Stripping does not change the bracket subsequence. -/
theorem filter_isBr_stripChars (l : List Char) :
    (stripChars l).filter isBr = l.filter isBr := by
  unfold stripChars
  rw [List.filter_reverse, filter_isBr_dropWhile, List.filter_reverse,
    List.reverse_reverse, filter_isBr_dropWhile]

theorem insSpace_head? (p q : Char → Bool) (l : List Char) :
    (insSpace p q l).head? = l.head? := by
  cases l with
  | nil => rfl
  | cons a t =>
    cases t with
    | nil => rfl
    | cons b t' =>
      rw [insSpace]
      by_cases h : (p a && q b) = true
      · rw [if_pos h]; rfl
      · rw [if_neg h]; rfl

/-- An insertion rule establishes its own pair freedom. -/
theorem noPair_insSpace_self {p q : Char → Bool}
    (hp : p ' ' = false) (hq : q ' ' = false) (l : List Char) :
    NoPair p q (insSpace p q l) := by
  induction l with
  | nil => exact List.chain'_nil
  | cons a t ih =>
    cases t with
    | nil => exact List.chain'_singleton a
    | cons b t' =>
      rw [insSpace]
      by_cases h : (p a && q b) = true
      · rw [if_pos h]
        refine List.chain'_cons.mpr ⟨by simp [hq], ?_⟩
        refine List.chain'_cons'.mpr ⟨?_, ih⟩
        intro y _
        simp [hp]
      · rw [if_neg h]
        refine List.chain'_cons'.mpr ⟨?_, ih⟩
        intro y hy
        rw [insSpace_head? p q (b :: t')] at hy
        simp only [List.head?_cons, Option.mem_def, Option.some.injEq] at hy
        subst hy
        intro ⟨hpa, hqb⟩
        rw [hpa, hqb] at h
        exact h rfl

/-- Insertion rules only insert spaces, so they preserve any pair freedom
whose classes exclude the space. -/
theorem noPair_insSpace_other {p' q' p q : Char → Bool}
    (hp' : p' ' ' = false) (hq' : q' ' ' = false) {l : List Char}
    (h : NoPair p' q' l) : NoPair p' q' (insSpace p q l) := by
  induction l with
  | nil => exact List.chain'_nil
  | cons a t ih =>
    cases t with
    | nil => exact List.chain'_singleton a
    | cons b t' =>
      have hab : ¬(p' a = true ∧ q' b = true) := (List.chain'_cons.mp h).1
      have htail : NoPair p' q' (b :: t') := (List.chain'_cons.mp h).2
      rw [insSpace]
      by_cases hc : (p a && q b) = true
      · rw [if_pos hc]
        refine List.chain'_cons.mpr ⟨by simp [hq'], ?_⟩
        refine List.chain'_cons'.mpr ⟨?_, ih htail⟩
        intro y _
        simp [hp']
      · rw [if_neg hc]
        refine List.chain'_cons'.mpr ⟨?_, ih htail⟩
        intro y hy
        rw [insSpace_head? p q (b :: t')] at hy
        simp only [List.head?_cons, Option.mem_def, Option.some.injEq] at hy
        subst hy
        exact hab

/-- A pair-free list is a fixed point of its insertion rule. -/
theorem insSpace_eq_self {p q : Char → Bool} {l : List Char}
    (h : NoPair p q l) : insSpace p q l = l := by
  induction l with
  | nil => rfl
  | cons a t ih =>
    cases t with
    | nil => rfl
    | cons b t' =>
      have hab : ¬(p a = true ∧ q b = true) := (List.chain'_cons.mp h).1
      have htail : NoPair p q (b :: t') := (List.chain'_cons.mp h).2
      rw [insSpace, if_neg (by rw [Bool.and_eq_true]; exact hab), ih htail]

theorem collapseWs_head? (l : List Char) :
    (collapseWs l).head? = l.head?.map (fun c => if isWs c then ' ' else c) := by
  induction l with
  | nil => rfl
  | cons a t ih =>
    cases t with
    | nil =>
      by_cases ha : isWs a
      · rw [collapseWs, if_pos ha]; simp [ha]
      · rw [collapseWs, if_neg ha]; simp [ha]
    | cons b t' =>
      rw [collapseWs]
      by_cases ha : isWs a
      · rw [if_pos ha]
        by_cases hb : isWs b
        · rw [if_pos hb, ih]
          simp [ha, hb]
        · rw [if_neg hb]
          simp [ha]
      · rw [if_neg ha]
        simp [ha]

/-- Whitespace collapsing preserves pair freedom for classes that exclude all
whitespace. -/
theorem noPair_collapseWs {p q : Char → Bool}
    (hp : ∀ c, isWs c = true → p c = false) (hq : ∀ c, isWs c = true → q c = false)
    {l : List Char} (h : NoPair p q l) : NoPair p q (collapseWs l) := by
  induction l with
  | nil => exact List.chain'_nil
  | cons a t ih =>
    cases t with
    | nil =>
      by_cases ha : isWs a
      · rw [collapseWs, if_pos ha]; exact List.chain'_singleton ' '
      · rw [collapseWs, if_neg ha]; exact List.chain'_singleton a
    | cons b t' =>
      have hab : ¬(p a = true ∧ q b = true) := (List.chain'_cons.mp h).1
      have htail : NoPair p q (b :: t') := (List.chain'_cons.mp h).2
      rw [collapseWs]
      by_cases ha : isWs a
      · rw [if_pos ha]
        by_cases hb : isWs b
        · rw [if_pos hb]; exact ih htail
        · rw [if_neg hb]
          refine List.chain'_cons'.mpr ⟨?_, ih htail⟩
          intro y _
          simp [hp ' ' isWs_space]
      · rw [if_neg ha]
        refine List.chain'_cons'.mpr ⟨?_, ih htail⟩
        intro y hy
        rw [collapseWs_head? (b :: t')] at hy
        have hy' : (if isWs b = true then ' ' else b) = y := by
          simpa using hy
        by_cases hb : isWs b
        · rw [if_pos hb] at hy'
          subst hy'
          intro hcon
          rw [hq ' ' isWs_space] at hcon
          exact absurd hcon.2 (by simp)
        · rw [if_neg hb] at hy'
          subst hy'
          exact hab

/-- Pair freedom restricts to suffixes, reverses (with flipped classes), and
hence survives stripping when, as here, it holds for both orders. -/
theorem noPair_stripChars {p q : Char → Bool} {l : List Char}
    (h : NoPair p q l) : NoPair p q (stripChars l) := by
  unfold stripChars
  have h1 : NoPair p q (l.dropWhile isWs) := h.suffix (List.dropWhile_suffix _)
  have h2 : List.Chain' (flip (fun a b => ¬(p a = true ∧ q b = true)))
      (l.dropWhile isWs).reverse := by
    rw [List.chain'_reverse]
    simpa [NoPair, flip] using h1
  have h3 : List.Chain' (flip (fun a b => ¬(p a = true ∧ q b = true)))
      ((l.dropWhile isWs).reverse.dropWhile isWs) :=
    h2.suffix (List.dropWhile_suffix _)
  rw [← List.chain'_reverse] at h3
  simpa [NoPair, flip] using h3

/-!
### Idempotence machinery: whitespace normal form

After rule 6, every whitespace character is a plain space and no two
whitespace characters are adjacent; on such text rule 6 is the identity, and
stripping is idempotent.
-/

theorem mem_collapseWs_ws {l : List Char} {c : Char}
    (hc : c ∈ collapseWs l) (hw : isWs c = true) : c = ' ' := by
  induction l with
  | nil => cases hc
  | cons a t ih =>
    cases t with
    | nil =>
      by_cases ha : isWs a
      · rw [collapseWs, if_pos ha] at hc
        simpa using hc
      · rw [collapseWs, if_neg ha] at hc
        simp only [List.mem_singleton] at hc
        subst hc
        exact absurd hw (by simp [ha])
    | cons b t' =>
      rw [collapseWs] at hc
      by_cases ha : isWs a
      · rw [if_pos ha] at hc
        by_cases hb : isWs b
        · rw [if_pos hb] at hc; exact ih hc
        · rw [if_neg hb] at hc
          rcases List.mem_cons.mp hc with h1 | h1
          · exact h1
          · exact ih h1
      · rw [if_neg ha] at hc
        rcases List.mem_cons.mp hc with h1 | h1
        · subst h1; exact absurd hw (by simp [ha])
        · exact ih h1

theorem noPair_ws_collapseWs (l : List Char) : NoPair isWs isWs (collapseWs l) := by
  induction l with
  | nil => exact List.chain'_nil
  | cons a t ih =>
    cases t with
    | nil =>
      by_cases ha : isWs a
      · rw [collapseWs, if_pos ha]; exact List.chain'_singleton ' '
      · rw [collapseWs, if_neg ha]; exact List.chain'_singleton a
    | cons b t' =>
      rw [collapseWs]
      by_cases ha : isWs a
      · rw [if_pos ha]
        by_cases hb : isWs b
        · rw [if_pos hb]; exact ih
        · rw [if_neg hb]
          refine List.chain'_cons'.mpr ⟨?_, ih⟩
          intro y hy
          rw [collapseWs_head? (b :: t')] at hy
          have hy' : (if isWs b = true then ' ' else b) = y := by simpa using hy
          rw [if_neg hb] at hy'
          subst hy'
          intro hcon
          exact absurd hcon.2 (by simp [hb])
      · rw [if_neg ha]
        refine List.chain'_cons'.mpr ⟨?_, ih⟩
        intro y _
        intro hcon
        exact absurd hcon.1 (by simp [ha])

theorem stripChars_subset {l : List Char} {c : Char} (hc : c ∈ stripChars l) : c ∈ l := by
  unfold stripChars at hc
  rw [List.mem_reverse] at hc
  have h1 := (List.dropWhile_suffix (l := (l.dropWhile isWs).reverse) isWs).sublist.subset hc
  rw [List.mem_reverse] at h1
  exact (List.dropWhile_suffix isWs).sublist.subset h1

/-- Rule 6's substitution is the identity on whitespace-normal text. -/
theorem collapseWs_eq_self {l : List Char}
    (hmem : ∀ c ∈ l, isWs c = true → c = ' ')
    (hch : NoPair isWs isWs l) : collapseWs l = l := by
  induction l with
  | nil => rfl
  | cons a t ih =>
    cases t with
    | nil =>
      by_cases ha : isWs a
      · rw [collapseWs, if_pos ha, hmem a (by simp) ha]
      · rw [collapseWs, if_neg ha]
    | cons b t' =>
      have htailmem : ∀ c ∈ b :: t', isWs c = true → c = ' ' :=
        fun c hcmem => hmem c (List.mem_cons_of_mem a hcmem)
      have htailch : NoPair isWs isWs (b :: t') := (List.chain'_cons.mp hch).2
      rw [collapseWs]
      by_cases ha : isWs a
      · have hb : isWs b = false := by
          have := (List.chain'_cons.mp hch).1
          by_contra hb'
          exact this ⟨ha, by simpa using hb'⟩
        rw [if_pos ha, if_neg (by simp [hb]), hmem a (by simp) ha,
          ih htailmem htailch]
      · rw [if_neg ha, ih htailmem htailch]

/-- Applying `clean_wikipedia_text` to its own output changes nothing: every
rewrite rule is the identity on cleaned text. -/
theorem cleanChars_idem (l : List Char) : cleanChars (cleanChars l) = cleanChars l := by
  have declo : isLowerA ' ' = false := by decide
  have decup : isUpperA ' ' = false := by decide
  have decle : isLetterA ' ' = false := by decide
  have decdi : isDigitA ' ' = false := by decide
  have decpu : isPunctC ' ' = false := by decide
  set w1 := insSpace isLowerA isUpperA (remCite l) with hw1
  set w2 := insSpace isPunctC isLetterA w1 with hw2
  set w3 := insSpace isLetterA isDigitA w2 with hw3
  set w4 := insSpace isDigitA isLetterA w3 with hw4
  have hy : cleanChars l = stripChars (collapseWs w4) := rfl
  set y := cleanChars l with hydef
  -- pair freedom of y for each insertion rule
  have nlu : NoPair isLowerA isUpperA y := by
    rw [hy]
    exact noPair_stripChars (noPair_collapseWs (fun c => isWs_not_lower)
      (fun c => isWs_not_upper)
      (noPair_insSpace_other declo decup (noPair_insSpace_other declo decup
        (noPair_insSpace_other declo decup (noPair_insSpace_self declo decup _)))))
  have npl : NoPair isPunctC isLetterA y := by
    rw [hy]
    exact noPair_stripChars (noPair_collapseWs (fun c => isWs_not_punct)
      (fun c => isWs_not_letter)
      (noPair_insSpace_other decpu decle (noPair_insSpace_other decpu decle
        (noPair_insSpace_self decpu decle _))))
  have nld : NoPair isLetterA isDigitA y := by
    rw [hy]
    exact noPair_stripChars (noPair_collapseWs (fun c => isWs_not_letter)
      (fun c => isWs_not_digit)
      (noPair_insSpace_other decle decdi (noPair_insSpace_self decle decdi _)))
  have ndl : NoPair isDigitA isLetterA y := by
    rw [hy]
    exact noPair_stripChars (noPair_collapseWs (fun c => isWs_not_digit)
      (fun c => isWs_not_letter) (noPair_insSpace_self decdi decle _))
  -- citation freedom of y
  have ncite : noCite y = true := by
    have hfil : y.filter isBr = (remCite l).filter isBr := by
      rw [hy, filter_isBr_stripChars, filter_isBr_collapseWs, hw4,
        filter_isBr_insSpace, hw3, filter_isBr_insSpace, hw2, filter_isBr_insSpace,
        hw1, filter_isBr_insSpace]
    rw [← noCite_filter, hfil, noCite_filter]
    exact noCite_remCite l
  -- whitespace normal form of y
  have nwsmem : ∀ c ∈ y, isWs c = true → c = ' ' := by
    intro c hcy hcw
    rw [hy] at hcy
    exact mem_collapseWs_ws (stripChars_subset hcy) hcw
  have nwsch : NoPair isWs isWs y := by
    rw [hy]
    exact noPair_stripChars (noPair_ws_collapseWs w4)
  -- every rule fixes y
  have e1 : remCite y = y := remCite_eq_self ncite
  have e2 : insSpace isLowerA isUpperA y = y := insSpace_eq_self nlu
  have e3 : insSpace isPunctC isLetterA y = y := insSpace_eq_self npl
  have e4 : insSpace isLetterA isDigitA y = y := insSpace_eq_self nld
  have e5 : insSpace isDigitA isLetterA y = y := insSpace_eq_self ndl
  have e6 : collapseWs y = y := collapseWs_eq_self nwsmem nwsch
  have e7 : stripChars y = y := by
    rw [hy, stripChars_idem]
  show cleanChars y = y
  unfold cleanChars
  rw [e1, e2, e3, e4, e5, e6, e7]

/-- C3: the text normalizer `clean_wikipedia_text` is idempotent: applying it
twice yields the same result as applying it once, for every input string. -/
theorem C3_normalizer_idempotent (x : String) :
    clean_wikipedia_text (clean_wikipedia_text x) = clean_wikipedia_text x := by
  unfold clean_wikipedia_text
  exact congrArg String.mk (cleanChars_idem x.data)

/-- C4 counterexample: on `"text[12]more"` the normalizer yields `"textmore"`,
not `"text more"` as the claim states — citation removal fuses the two
lowercase fragments, and no subsequent rule separates a lowercase letter from
a following lowercase letter. -/
theorem C4_counterexample :
    clean_wikipedia_text "text[12]more" = "textmore" ∧
    clean_wikipedia_text "text[12]more" ≠ "text more" := by
  constructor <;>
    simp [clean_wikipedia_text, cleanChars, remCite, findClose, insSpace, collapseWs,
      stripChars, isWs, isLowerA, isUpperA, isLetterA, isDigitA, isPunctC, String.data]

/-- C4 (amended): the normalizer maps `"theRepublic"` to `"the Republic"`,
`"India,is"` to `"India, is"`, `"basin9"` to `"basin 9"`, `"1200BCE"` to
`"1200 BCE"`, and `"text[12]more"` to `"textmore"` (the citation marker is
removed; the resulting lowercase-lowercase fusion is not repaired by any
subsequent rule). -/
theorem C4_normalizer_examples :
    clean_wikipedia_text "theRepublic" = "the Republic" ∧
    clean_wikipedia_text "India,is" = "India, is" ∧
    clean_wikipedia_text "basin9" = "basin 9" ∧
    clean_wikipedia_text "1200BCE" = "1200 BCE" ∧
    clean_wikipedia_text "text[12]more" = "textmore" := by
  refine ⟨?_, ?_, ?_, ?_, ?_⟩ <;>
    simp [clean_wikipedia_text, cleanChars, remCite, findClose, insSpace, collapseWs,
      stripChars, isWs, isLowerA, isUpperA, isLetterA, isDigitA, isPunctC, String.data]

theorem splitNl_ne_nil (l : List Char) : splitNl l ≠ [] := by
  cases l with
  | nil => simp [splitNl]
  | cons c cs =>
    rw [splitNl]
    by_cases hc : c = '\n'
    · rw [if_pos hc]; simp
    · rw [if_neg hc]; simp

theorem splitNl_head_tail (l : List Char) :
    (splitNl l).headD [] :: (splitNl l).tail = splitNl l := by
  cases hsp : splitNl l with
  | nil => exact absurd hsp (splitNl_ne_nil l)
  | cons a t => rfl

theorem matchCaseless_eq (pat : List Char) : ∀ l : List Char,
    matchCaseless pat l =
      if (l.take pat.length).map Char.toLower = pat then
        some (l.take pat.length, l.drop pat.length)
      else none := by
  induction pat with
  | nil => intro l; simp [matchCaseless]
  | cons pc ps ih =>
    intro l
    cases l with
    | nil => simp [matchCaseless]
    | cons c cs =>
      rw [matchCaseless]
      by_cases hc : c.toLower = pc
      · rw [if_pos hc, ih cs]
        by_cases hrec : (cs.take ps.length).map Char.toLower = ps
        · rw [if_pos hrec, if_pos (by simp [hc, hrec])]
          rfl
        · rw [if_neg hrec, if_neg (by simp [hc, ← List.map_take, hrec])]
          rfl
      · rw [if_neg hc, if_neg (by simp [hc])]

theorem getLastD_mem_cons : ∀ (r : List Char) (e x : Char), (e :: r).getLastD x ∈ e :: r := by
  intro r
  induction r with
  | nil => intro e x; simp [List.getLastD]
  | cons b t ih =>
    intro e x
    rw [List.getLastD_cons]
    exact List.mem_cons_of_mem e (ih b e)

/-- The captured and trimmed utterance equals the trimmed remainder after the
colon, in both the regular and the backtracking case of `\s*(.+)`. -/
theorem strip_capture_eq (e : Char) (r5 : List Char) :
    stripChars (if ((e :: r5).dropWhile isWs).isEmpty
        then [(e :: r5).getLastD ' '] else (e :: r5).dropWhile isWs)
      = stripChars (e :: r5) := by
  by_cases hemp : ((e :: r5).dropWhile isWs).isEmpty
  · rw [if_pos hemp]
    rw [List.isEmpty_iff] at hemp
    have hws : ∀ c ∈ e :: r5, isWs c = true := List.dropWhile_eq_nil_iff.mp hemp
    have hlast : isWs ((e :: r5).getLastD ' ') = true :=
      hws _ (getLastD_mem_cons r5 e ' ')
    rw [← stripChars_dropWhile (e :: r5), hemp]
    show stripChars ([(e :: r5).getLastD ' ']) = stripChars []
    rw [show ([(e :: r5).getLastD ' ']) = (e :: r5).getLastD ' ' :: [] from rfl,
      stripChars_cons_ws hlast]
  · rw [if_neg hemp, stripChars_dropWhile]

theorem one_not_mem_speaker_token {l : List Char}
    (hm : l.map Char.toLower = "speaker".data) : '1' ∉ l := by
  intro hmem
  have : Char.toLower '1' ∈ l.map Char.toLower := List.mem_map_of_mem _ hmem
  rw [hm] at this
  revert this
  decide

/-- The test `"1" in speaker_raw` holds exactly when the matched digit is `1`: the
case-folded `Speaker` token and the whitespace run cannot contain a `1`. -/
theorem one_mem_group1_iff {m1 wsRun : List Char} {d : Char}
    (hm : m1.map Char.toLower = "speaker".data)
    (hws : ∀ c ∈ wsRun, isWs c = true) :
    ('1' ∈ m1 ++ wsRun ++ [d]) ↔ d = '1' := by
  constructor
  · intro hmem
    rcases List.mem_append.mp hmem with hmem' | hmem'
    · rcases List.mem_append.mp hmem' with h1 | h1
      · exact absurd h1 (one_not_mem_speaker_token hm)
      · have := hws _ h1
        rw [show isWs '1' = false from rfl] at this
        cases this
    · simp only [List.mem_singleton] at hmem'
      exact hmem'.symm
  · intro hd
    subst hd
    simp

/-- The embedded regex matcher agrees pointwise with the claim-side line
matcher. -/
theorem parseLine_eq_specLine (line : List Char) : parseLine line = specLine line := by
  rw [parseLine, specLine, matchCaseless_eq, show ("speaker".data).length = 7 from rfl]
  by_cases hm : ((stripChars line).take 7).map Char.toLower = "speaker".data
  · rw [if_pos hm, if_pos hm]
    simp only []
    cases hr2 : ((stripChars line).drop 7).dropWhile isWs with
    | nil => rfl
    | cons d r3 =>
      simp only []
      by_cases hd : d = '1' ∨ d = '2'
      · rw [if_pos hd, if_pos hd]
        cases r3 with
        | nil => rfl
        | cons c3 r4 =>
          simp only []
          by_cases hc3 : c3 = ':'
          · rw [if_pos hc3, if_pos hc3]
            cases r4 with
            | nil => rfl
            | cons e r5 =>
              simp only [List.isEmpty_cons]
              have hsid : (if '1' ∈ (stripChars line).take 7 ++
                  ((stripChars line).drop 7).takeWhile isWs ++ [d] then "speaker1"
                  else "speaker2") = (if d = '1' then "speaker1" else "speaker2") := by
                rcases Decidable.em (d = '1') with h1 | h1
                · rw [if_pos h1, if_pos ((one_mem_group1_iff hm
                    (fun c hc => List.mem_takeWhile_imp hc)).mpr h1)]
                · rw [if_neg h1,
                    if_neg (fun hmem => h1 ((one_mem_group1_iff hm
                      (fun c hc => List.mem_takeWhile_imp hc)).mp hmem))]
              rw [hsid, strip_capture_eq]
              simp
          · rw [if_neg hc3, if_neg hc3]
      · rw [if_neg hd, if_neg hd]
  · rw [if_neg hm, if_neg hm]

theorem addLast_cons_of_ne_nil (c : Char) (l : List Char) {ls : List (List Char)}
    (h : ls ≠ []) : addLast c (l :: ls) = l :: addLast c ls := by
  cases ls with
  | nil => exact absurd rfl h
  | cons a t => rfl

theorem addLast_append_last (c : Char) (z : List Char) : ∀ Y : List (List Char),
    addLast c (Y ++ [z]) = Y ++ [z ++ [c]] := by
  intro Y
  induction Y with
  | nil => rfl
  | cons a Y' ih =>
    rw [List.cons_append, addLast_cons_of_ne_nil c a (by simp), ih, List.cons_append]

theorem splitNl_append_single (c : Char) : ∀ x : List Char,
    splitNl (x ++ [c]) =
      if c = '\n' then splitNl x ++ [[]] else addLast c (splitNl x) := by
  intro x
  induction x with
  | nil =>
    by_cases hc : c = '\n'
    · subst hc; simp [splitNl]
    · rw [if_neg hc]
      simp [splitNl, hc, addLast]
  | cons d x' ih =>
    rw [List.cons_append, splitNl]
    by_cases hd : d = '\n'
    · rw [if_pos hd, ih]
      by_cases hc : c = '\n'
      · rw [if_pos hc, if_pos hc, splitNl, if_pos hd, List.cons_append]
      · rw [if_neg hc, if_neg hc, splitNl, if_pos hd,
          addLast_cons_of_ne_nil c [] (splitNl_ne_nil x')]
    · rw [if_neg hd, ih]
      by_cases hc : c = '\n'
      · rw [if_pos hc, if_pos hc, splitNl, if_neg hd]
        cases hsp : splitNl x' with
        | nil => exact absurd hsp (splitNl_ne_nil x')
        | cons H T => simp
      · rw [if_neg hc, if_neg hc, splitNl, if_neg hd]
        cases hsp : splitNl x' with
        | nil => exact absurd hsp (splitNl_ne_nil x')
        | cons H T =>
          cases T with
          | nil => simp [addLast]
          | cons H2 T2 => simp [addLast]

theorem splitNl_reverse : ∀ t : List Char,
    splitNl t.reverse = ((splitNl t).map List.reverse).reverse := by
  intro t
  induction t with
  | nil => rfl
  | cons c t' ih =>
    rw [List.reverse_cons, splitNl_append_single, splitNl]
    by_cases hc : c = '\n'
    · rw [if_pos hc, if_pos hc, ih]
      simp
    · rw [if_neg hc, if_neg hc, ih]
      cases hsp : splitNl t' with
      | nil => exact absurd hsp (splitNl_ne_nil t')
      | cons H T =>
        simp [addLast_append_last]

/-- Leading whitespace of the script is invisible to per-line matchers that
ignore blank lines and leading line whitespace. -/
theorem filterMap_splitNl_dropFront {β : Type} (g : List Char → Option β)
    (hnil : g [] = none)
    (hcons : ∀ c l, isWs c = true → g (c :: l) = g l) :
    ∀ l : List Char,
      (splitNl (l.dropWhile isWs)).filterMap g = (splitNl l).filterMap g := by
  intro l
  induction l with
  | nil => rfl
  | cons c cs ih =>
    by_cases hc : isWs c
    · rw [List.dropWhile_cons_of_pos hc, ih, splitNl]
      cases hsp : splitNl cs with
      | nil => exact absurd hsp (splitNl_ne_nil cs)
      | cons H T =>
        by_cases hnl : c = '\n'
        · simp only [if_pos hnl, List.filterMap_cons, hnil]
        · simp only [if_neg hnl, List.headD_cons, List.tail_cons,
            List.filterMap_cons, hcons c H hc]
    · rw [List.dropWhile_cons_of_neg (by simp [hc])]

theorem filterMap_splitNl_reverse {β : Type} (g : List Char → Option β)
    (u : List Char) :
    (splitNl u.reverse).filterMap g
      = ((splitNl u).filterMap (fun x => g x.reverse)).reverse := by
  rw [splitNl_reverse, List.filterMap_reverse, List.filterMap_map]
  rfl

/-- Trailing whitespace of the script is likewise invisible. -/
theorem filterMap_splitNl_dropBack {β : Type} (g : List Char → Option β)
    (hnil : g [] = none)
    (hsingle : ∀ l c, isWs c = true → g (l ++ [c]) = g l) :
    ∀ t : List Char,
      (splitNl ((t.reverse.dropWhile isWs).reverse)).filterMap g
        = (splitNl t).filterMap g := by
  intro t
  rw [filterMap_splitNl_reverse g (t.reverse.dropWhile isWs),
    filterMap_splitNl_dropFront (fun x => g x.reverse)
      (by simpa using hnil)
      (fun c l hcw => by simpa using hsingle l.reverse c hcw),
    filterMap_splitNl_reverse (fun x => g x.reverse) t,
    List.reverse_reverse]
  exact List.filterMap_congr (fun x _ => by simp)

/-- Stripping the script before splitting does not change the parsed turns,
for per-line matchers that ignore blank lines and line-edge whitespace. -/
theorem filterMap_splitNl_strip {β : Type} (g : List Char → Option β)
    (hnil : g [] = none)
    (hcons : ∀ c l, isWs c = true → g (c :: l) = g l)
    (hsingle : ∀ l c, isWs c = true → g (l ++ [c]) = g l)
    (s : List Char) :
    (splitNl (stripChars s)).filterMap g = (splitNl s).filterMap g := by
  unfold stripChars
  rw [filterMap_splitNl_dropBack g hnil hsingle (s.dropWhile isWs),
    filterMap_splitNl_dropFront g hnil hcons]

theorem parseLine_nil : parseLine [] = none := rfl

theorem parseLine_cons_ws {c : Char} (hc : isWs c = true) (l : List Char) :
    parseLine (c :: l) = parseLine l := by
  rw [parseLine, parseLine, stripChars_cons_ws hc]

theorem parseLine_append_ws {c : Char} (hc : isWs c = true) (l : List Char) :
    parseLine (l ++ [c]) = parseLine l := by
  rw [parseLine, parseLine, stripChars_append_ws hc]

/-- C2: for every script string, the parser returns exactly the ordered
turns of the lines matching `Speaker`-(optional whitespace)-`1`/`2`-colon-
utterance (case-insensitively, whitespace-tolerantly), with every other line
silently dropped and no gap in the ordering; in particular the worked example
of the spec parses as stated. -/
theorem C2_parser_spec :
    (∀ script : String, parse_conversation script = specParse script) ∧
    parse_conversation "Speaker1: Hello there\nnot a line\nSpeaker2: Hi!\n" =
      [("speaker1", "Hello there"), ("speaker2", "Hi!")] := by
  constructor
  · intro script
    rw [parse_conversation, specParse,
      filterMap_splitNl_strip parseLine parseLine_nil
        (fun c l hc => parseLine_cons_ws hc l)
        (fun l c hc => parseLine_append_ws hc l)]
    exact List.filterMap_congr (fun x _ => parseLine_eq_specLine x)
  · decide

theorem mem_of_getLast?_eq {l : List Char} {c : Char}
    (h : l.getLast? = some c) : c ∈ l := by
  have h' : c ∈ l.getLast? := h
  obtain ⟨hne, hc⟩ := List.mem_getLast?_eq_getLast h'
  rw [hc]
  exact List.getLast_mem hne

/-- A list whose last element is not whitespace does not strip to nothing. -/
theorem stripChars_ne_nil_of_last {l : List Char} {c : Char}
    (hl : l.getLast? = some c) (hc : isWs c = false) : stripChars l ≠ [] := by
  intro hnil
  unfold stripChars at hnil
  rw [List.reverse_eq_nil_iff, List.dropWhile_eq_nil_iff] at hnil
  have hall : ∀ x ∈ l.dropWhile isWs, isWs x = true := by
    intro x hx
    exact hnil x (List.mem_reverse.mpr hx)
  by_cases hdw : l.dropWhile isWs = []
  · rw [List.dropWhile_eq_nil_iff] at hdw
    rw [hdw c (mem_of_getLast?_eq hl)] at hc
    cases hc
  · have hlast : (l.dropWhile isWs).getLast? = some c := by
      rw [getLast?_of_suffix (List.dropWhile_suffix isWs) hdw]
      exact hl
    rw [hall c (mem_of_getLast?_eq hlast)] at hc
    cases hc

/-- Every turn produced by the claim-side line matcher has a well-formed
speaker id and a nonempty, fully trimmed utterance. -/
theorem specLine_some {line : List Char} {sid utt : String}
    (h : specLine line = some (sid, utt)) :
    (sid = "speaker1" ∨ sid = "speaker2") ∧ utt ≠ "" ∧ pyStrip utt = utt := by
  rw [specLine] at h
  by_cases hm : (((stripChars line).take 7).map Char.toLower) = "speaker".data
  · rw [if_pos hm] at h
    cases hr2 : ((stripChars line).drop 7).dropWhile isWs with
    | nil => rw [hr2] at h; cases h
    | cons d rest =>
      rw [hr2] at h
      simp only [] at h
      by_cases hd : d = '1' ∨ d = '2'
      · rw [if_pos hd] at h
        cases rest with
        | nil => cases h
        | cons c3 tail =>
          simp only [] at h
          by_cases hc3 : c3 = ':'
          · rw [if_pos hc3] at h
            cases htail : tail with
            | nil => rw [htail] at h; cases h
            | cons e r5 =>
              rw [htail] at h
              simp only [List.isEmpty_cons, if_neg (by simp : ¬(false = true))] at h
              injection h with h1
              injection h1 with hsid hutt
              subst hutt
              refine ⟨?_, ?_, ?_⟩
              · rcases Decidable.em (d = '1') with h1 | h1
                · left; rw [← hsid, if_pos h1]
                · right; rw [← hsid, if_neg h1]
              · -- the utterance is nonempty: the tail is a suffix of the
                -- stripped line, whose last character is not whitespace
                have hsuf : e :: r5 <:+ stripChars line := by
                  have s1 : d :: c3 :: e :: r5 <:+ stripChars line := by
                    calc d :: c3 :: e :: r5
                        <:+ (stripChars line).drop 7 := by
                          rw [← htail, ← hr2]
                          exact List.dropWhile_suffix isWs
                      _ <:+ stripChars line := List.drop_suffix 7 _
                  exact (show e :: r5 <:+ d :: c3 :: e :: r5 from ⟨[d, c3], rfl⟩).trans s1
                have hne : (e :: r5) ≠ [] := by simp
                obtain ⟨cl, hcl⟩ : ∃ cl, (e :: r5).getLast? = some cl :=
                  ⟨(e :: r5).getLast (by simp), List.getLast?_eq_getLast _ _⟩
                have hcll : (stripChars line).getLast? = some cl := by
                  rw [← getLast?_of_suffix hsuf hne]
                  exact hcl
                have hclw : isWs cl = false := stripChars_getLast?_not_ws hcll
                intro hutt0
                have : stripChars (e :: r5) = [] := by
                  have := congrArg String.data hutt0
                  simpa using this
                exact stripChars_ne_nil_of_last hcl hclw this
              · show pyStrip ⟨stripChars (e :: r5)⟩ = ⟨stripChars (e :: r5)⟩
                unfold pyStrip
                exact congrArg String.mk (stripChars_idem _)
          · rw [if_neg hc3] at h; cases h
      · rw [if_neg hd] at h; cases h
  · rw [if_neg hm] at h; cases h

/-- C10: every turn produced by the transcript parser has speaker id
`speaker1` or `speaker2` and a nonempty utterance with no edge whitespace;
the voice map is defined on exactly these two ids, so the synthesizer's
voice lookup cannot miss for parsed turns. -/
theorem C10_parser_output_safety :
    (∀ script sid utt : String, (sid, utt) ∈ parse_conversation script →
      (sid = "speaker1" ∨ sid = "speaker2") ∧ utt ≠ "" ∧ pyStrip utt = utt ∧
        (VOICE_MAP.lookup sid).isSome = true) ∧
    VOICE_MAP.map Prod.fst = ["speaker1", "speaker2"] := by
  constructor
  · intro script sid utt hmem
    rw [parse_conversation] at hmem
    obtain ⟨lineChars, _, hline⟩ := List.mem_filterMap.mp hmem
    rw [parseLine_eq_specLine] at hline
    obtain ⟨hsid, hutt, hstrip⟩ := specLine_some hline
    refine ⟨hsid, hutt, hstrip, ?_⟩
    rcases hsid with rfl | rfl <;> decide
  · decide

/-- Witness for C10 at a concrete script and turn. -/
theorem C10_parser_output_safety_witness :
    ("speaker1" = "speaker1" ∨ "speaker1" = "speaker2") ∧ "Hi" ≠ "" ∧
      pyStrip "Hi" = "Hi" ∧ (VOICE_MAP.lookup "speaker1").isSome = true :=
  C10_parser_output_safety.1 "Speaker1: Hi" "speaker1" "Hi" (by decide)

theorem isHeadingTag_ne_p {t : Tag} (h : isHeadingTag t = true) : t ≠ Tag.p := by
  cases t <;> simp_all [isHeadingTag]

theorem tag_p_of_not_heading {t : Tag} (h : isHeadingTag t = false) : t = Tag.p := by
  cases t <;> simp_all [isHeadingTag]

/-- Before the start node is met, the scan only looks for it. -/
theorem collectContent_false_eq (startN endN : Node) : ∀ doc : List Node,
    collectContent startN endN false doc
      = collectContent startN endN true (dropThroughFirst startN doc) := by
  intro doc
  induction doc with
  | nil => rfl
  | cons n ns ih =>
    rw [collectContent, dropThroughFirst]
    by_cases hn : n = startN
    · rw [if_pos hn, if_pos hn]
    · rw [if_neg hn, if_neg hn, if_neg (by simp : ¬(false = true))]
      exact ih

/-- Once started, the scan collects exactly the long paragraphs up to the
first heading that differs from both boundary nodes. -/
theorem collectContent_true_eq (startN endN : Node)
    (hhead : isHeadingTag startN.tag = true) : ∀ l : List Node,
    collectContent startN endN true l
      = (l.takeWhile
          (fun n => !(isHeadingTag n.tag && decide (n ≠ startN)
            && decide (n ≠ endN)))).filterMap paraFilter := by
  intro l
  induction l with
  | nil => rfl
  | cons n ns ih =>
    rw [collectContent, List.takeWhile_cons]
    by_cases hn : n = startN
    · rw [if_pos hn,
        if_pos (show (!(isHeadingTag n.tag && decide (n ≠ startN)
          && decide (n ≠ endN))) = true by subst hn; simp),
        List.filterMap_cons]
      have hpf : paraFilter n = none := by
        rw [paraFilter, if_neg]
        intro hcon
        exact isHeadingTag_ne_p (by rw [← hn] at hhead; exact hhead) hcon.1
      rw [hpf, ih]
    · rw [if_neg hn, if_pos rfl]
      by_cases hht : isHeadingTag n.tag = true
      · rw [if_pos hht]
        by_cases he : n = endN
        · rw [if_pos he,
            if_pos (show (!(isHeadingTag n.tag && decide (n ≠ startN)
              && decide (n ≠ endN))) = true by subst he; simp),
            List.filterMap_cons]
          have hpf : paraFilter n = none := by
            rw [paraFilter, if_neg]
            intro hcon
            exact isHeadingTag_ne_p hht hcon.1
          rw [hpf, ih]
        · rw [if_neg he,
            if_neg (show ¬((!(isHeadingTag n.tag && decide (n ≠ startN)
              && decide (n ≠ endN))) = true) by simp [hht, hn, he])]
          rfl
      · have hp : n.tag = Tag.p := tag_p_of_not_heading (by simpa using hht)
        rw [if_neg hht,
          if_pos (show (!(isHeadingTag n.tag && decide (n ≠ startN)
            && decide (n ≠ endN))) = true by simp [hht]),
          List.filterMap_cons]
        by_cases hlen : n.txt.length > 50
        · rw [if_pos hlen]
          have hpf : paraFilter n = some n.txt := by
            rw [paraFilter, if_pos ⟨hp, hlen⟩]
          rw [hpf, ih]
        · rw [if_neg hlen]
          have hpf : paraFilter n = none := by
            rw [paraFilter, if_neg]
            intro hcon
            exact hlen hcon.2
          rw [hpf, ih]

/-- C1 (amended): when the heading list is nonempty and both boundary nodes
are locatable, the extracted content is the newline-joined list of the
paragraph texts longer than 50 characters lying strictly after the first
occurrence of the start node and before the first heading node that differs
from both the start node and the end node; heading nodes equal to either
boundary are skipped without stopping collection. -/
theorem C1_extraction_window (doc : List Node) (h0 : HLevel × String)
    (hs : List (HLevel × String)) (startN endN : Node)
    (hstart : findHeadingNode doc h0 = some startN)
    (hend : findHeadingNode doc ((h0 :: hs).getLastD h0) = some endN) :
    extract_combined_content doc (h0 :: hs)
      = String.intercalate "\n" (claimWindow startN endN doc) := by
  have hp := List.find?_some hstart
  simp only [decide_eq_true_eq] at hp
  have hhead : isHeadingTag startN.tag = true := by
    rw [isHeadingTag, hp.1]
    cases h0.1 <;> decide
  rw [extract_combined_content, hstart, hend]
  show String.intercalate "\n" (collectContent startN endN false doc)
    = String.intercalate "\n" (claimWindow startN endN doc)
  rw [collectContent_false_eq, collectContent_true_eq startN endN hhead, claimWindow]

/-- Witness for C1 on a concrete document. -/
theorem C1_extraction_window_witness :
    extract_combined_content docPlain ((HLevel.H1, "T") :: [(HLevel.H2, "S")])
      = String.intercalate "\n"
          (claimWindow ⟨Tag.h1, "T", some "firstHeading"⟩ ⟨Tag.h2, "S", none⟩ docPlain) :=
  C1_extraction_window docPlain (HLevel.H1, "T") [(HLevel.H2, "S")]
    ⟨Tag.h1, "T", some "firstHeading"⟩ ⟨Tag.h2, "S", none⟩
    (by decide) (by decide)

/-- C1 counterexample: on `docDup` the code skips the duplicated start node
and keeps collecting (both paragraphs), while the claim's window — which
hard-stops at every heading other than the designated last heading's node —
contains only the first paragraph. -/
theorem C1_counterexample :
    extract_headings docDup = [(HLevel.H1, "T"), (HLevel.H2, "X"), (HLevel.H2, "Z")] ∧
    findHeadingNode docDup (HLevel.H1, "T") = some ⟨Tag.h1, "T", some "firstHeading"⟩ ∧
    findHeadingNode docDup (HLevel.H2, "Z") = some ⟨Tag.h2, "Z", none⟩ ∧
    extract_combined_content docDup (extract_headings docDup) = paraA ++ "\n" ++ paraB ∧
    String.intercalate "\n"
      (claimWindowOrig ⟨Tag.h1, "T", some "firstHeading"⟩ ⟨Tag.h2, "Z", none⟩ docDup)
      = paraA ∧
    extract_combined_content docDup (extract_headings docDup) ≠
      String.intercalate "\n"
        (claimWindowOrig ⟨Tag.h1, "T", some "firstHeading"⟩ ⟨Tag.h2, "Z", none⟩ docDup) := by
  refine ⟨?_, ?_, ?_, ?_, ?_, ?_⟩ <;> decide

/-- C5 (amended): if the selected heading list is empty, or either boundary
node cannot be located, extraction returns the empty string (no error). -/
theorem C5_empty_extraction (doc : List Node) (headings : List (HLevel × String))
    (h : headings = [] ∨ ∃ h0 hs, headings = h0 :: hs ∧
      (findHeadingNode doc h0 = none ∨
        findHeadingNode doc ((h0 :: hs).getLastD h0) = none)) :
    extract_combined_content doc headings = "" := by
  rcases h with rfl | ⟨h0, hs, rfl, hnone⟩
  · rfl
  · rw [extract_combined_content]
    rcases hnone with hn | hn
    · rw [hn]
    · rw [hn]
      cases findHeadingNode doc h0 <;> rfl

/-- Witness for C5 at a concrete document. -/
theorem C5_empty_extraction_witness :
    extract_combined_content docPlain [(HLevel.H2, "missing")] = "" :=
  C5_empty_extraction docPlain [(HLevel.H2, "missing")]
    (Or.inr ⟨(HLevel.H2, "missing"), [], rfl, Or.inl (by decide)⟩)

/-- C5 counterexample: a document without a page-title element can still
produce nonempty extracted content, because `extract_headings` falls back to
subsection headings alone. -/
theorem C5_counterexample :
    findFirstHeadingH1 docNoTitle = none ∧
    extract_combined_content docNoTitle (extract_headings docNoTitle) = paraA ∧
    extract_combined_content docNoTitle (extract_headings docNoTitle) ≠ "" := by
  refine ⟨?_, ?_, ?_⟩ <;> decide

/-- The heading accumulation loop appends the first admissible subsection
titles up to the cap of three headings in total. -/
theorem extractHeadingsGo_eq : ∀ (l : List Node) (acc : List (HLevel × String)),
    extractHeadingsGo acc l
      = acc ++ (((l.map Node.txt).filter h2Ok).take (3 - acc.length)).map
          (fun t => (HLevel.H2, t)) := by
  intro l
  induction l with
  | nil => intro acc; simp [extractHeadingsGo]
  | cons n ns ih =>
    intro acc
    rw [extractHeadingsGo]
    by_cases hcap : acc.length ≥ 3
    · rw [if_pos hcap, show 3 - acc.length = 0 from by omega]
      simp
    · rw [if_neg hcap]
      by_cases hok : h2Ok n.txt = true
      · rw [if_pos hok, ih]
        rw [List.map_cons, List.filter_cons_of_pos hok,
          show 3 - acc.length = (3 - (acc ++ [(HLevel.H2, n.txt)]).length) + 1 from by
            simp; omega,
          List.take_succ_cons, List.map_cons]
        simp
      · rw [if_neg hok, ih, List.map_cons, List.filter_cons_of_neg (by simp [hok])]

/-- C6: with a resolvable page-title element, the selected headings are the
top-level heading followed by the first (at most) two admissible subsection
titles in document order — subsection headings with empty text or text
`Contents` are skipped and do not count — and the list never exceeds three
entries. -/
theorem C6_heading_selection (doc : List Node) (n : Node)
    (h : findFirstHeadingH1 doc = some n) :
    extract_headings doc
      = (HLevel.H1, n.txt) ::
          ((((doc.filter (fun m => decide (m.tag = Tag.h2))).map Node.txt).filter
            h2Ok).take 2).map (fun t => (HLevel.H2, t)) ∧
    (extract_headings doc).length ≤ 3 := by
  have hmain : extract_headings doc
      = (HLevel.H1, n.txt) ::
          ((((doc.filter (fun m => decide (m.tag = Tag.h2))).map Node.txt).filter
            h2Ok).take 2).map (fun t => (HLevel.H2, t)) := by
    rw [extract_headings, h]
    simp only []
    rw [extractHeadingsGo_eq]
    rfl
  refine ⟨hmain, ?_⟩
  rw [hmain]
  simp only [List.length_cons, List.length_map]
  have := List.length_take_le 2
    (((doc.filter (fun m => decide (m.tag = Tag.h2))).map Node.txt).filter h2Ok)
  omega

/-- Witness for C6 at a concrete document. -/
theorem C6_heading_selection_witness :
    extract_headings docPlain
      = (HLevel.H1, "T") ::
          ((((docPlain.filter (fun m => decide (m.tag = Tag.h2))).map Node.txt).filter
            h2Ok).take 2).map (fun t => (HLevel.H2, t)) ∧
    (extract_headings docPlain).length ≤ 3 :=
  C6_heading_selection docPlain ⟨Tag.h1, "T", some "firstHeading"⟩ (by decide)

theorem natural_pause_ms_pos (k : Fin 5) : natural_pause_ms k ≠ 0 := by
  have : ∀ k : Fin 5, natural_pause_ms k ≠ 0 := by decide
  exact this k

theorem stitchGo_filter_speech (tts : String → String → Nat) (rand : Nat → Fin 5) :
    ∀ (turns : List (String × String)) (i : Nat),
      (stitchGo tts rand i turns).filter isSpeech
        = turns.map (fun p => Piece.speech p.1 p.2 (tts p.1 p.2)) := by
  intro turns
  induction turns with
  | nil => intro i; rfl
  | cons hd rest ih =>
    intro i
    obtain ⟨speaker, text⟩ := hd
    rw [stitchGo]
    by_cases hrest : rest = []
    · subst hrest
      rfl
    · rw [if_neg hrest, List.filter_cons_of_pos (by rfl), List.filter_append]
      rw [show silent (natural_pause_ms (rand i)) = [Piece.silence (natural_pause_ms (rand i))] from
        by rw [silent, if_neg (natural_pause_ms_pos (rand i))]]
      rw [List.filter_cons_of_neg (by simp [isSilence, isSpeech]), List.filter_nil,
        List.nil_append, ih (i + 1), List.map_cons]

theorem stitchGo_filter_silence (tts : String → String → Nat) (rand : Nat → Fin 5) :
    ∀ (turns : List (String × String)) (i : Nat),
      (stitchGo tts rand i turns).filter isSilence
        = (List.range' i (turns.length - 1)).map
            (fun j => Piece.silence (natural_pause_ms (rand j))) := by
  intro turns
  induction turns with
  | nil => intro i; rfl
  | cons hd rest ih =>
    intro i
    obtain ⟨speaker, text⟩ := hd
    rw [stitchGo]
    by_cases hrest : rest = []
    · subst hrest
      rfl
    · rw [if_neg hrest, List.filter_cons_of_neg (by simp [isSilence]), List.filter_append]
      rw [show silent (natural_pause_ms (rand i)) = [Piece.silence (natural_pause_ms (rand i))] from
        by rw [silent, if_neg (natural_pause_ms_pos (rand i))]]
      rw [List.filter_cons_of_pos (by rfl), List.filter_nil, ih (i + 1)]
      cases rest with
      | nil => exact absurd rfl hrest
      | cons r0 rs =>
        simp only [List.length_cons, Nat.add_sub_cancel]
        rw [List.range'_succ, List.map_cons, List.singleton_append]

/-- Splitting a track's duration over its speech and silence segments. -/
theorem trackMs_split : ∀ t : List Piece,
    trackMs t = ((t.filter isSpeech).map pieceMs).sum
      + ((t.filter isSilence).map pieceMs).sum := by
  intro t
  induction t with
  | nil => rfl
  | cons piece rest ih =>
    cases piece with
    | speech sp tx ms =>
      rw [trackMs, List.map_cons, List.sum_cons,
        List.filter_cons_of_pos (by rfl), List.filter_cons_of_neg (by simp [isSilence]),
        List.map_cons, List.sum_cons]
      rw [trackMs] at ih
      omega
    | silence ms =>
      rw [trackMs, List.map_cons, List.sum_cons,
        List.filter_cons_of_neg (by simp [isSpeech]), List.filter_cons_of_pos (by rfl),
        List.map_cons, List.sum_cons]
      rw [trackMs] at ih
      omega

/-- The stitch loop builds exactly the interleaving `seg₀, pause₀, seg₁,
pause₁, …, segₙ`: one pause strictly between each pair of adjacent segments,
none before the first or after the last. -/
theorem stitchGo_weave (tts : String → String → Nat) (rand : Nat → Fin 5) :
    ∀ (turns : List (String × String)) (i : Nat),
      stitchGo tts rand i turns
        = weave (turns.map (fun p => Piece.speech p.1 p.2 (tts p.1 p.2)))
            ((List.range' i (turns.length - 1)).map
              (fun j => Piece.silence (natural_pause_ms (rand j)))) := by
  intro turns
  induction turns with
  | nil => intro i; rfl
  | cons hd rest ih =>
    intro i
    obtain ⟨speaker, text⟩ := hd
    rw [stitchGo]
    by_cases hrest : rest = []
    · subst hrest
      rfl
    · rw [if_neg hrest]
      cases rest with
      | nil => exact absurd rfl hrest
      | cons r0 rs =>
        rw [show silent (natural_pause_ms (rand i))
            = [Piece.silence (natural_pause_ms (rand i))] from
          by rw [silent, if_neg (natural_pause_ms_pos (rand i))]]
        rw [List.singleton_append, ih (i + 1)]
        simp only [List.length_cons, Nat.add_sub_cancel]
        rw [List.range'_succ, List.map_cons, List.map_cons]
        rfl

/-- C7: for every turn sequence of length N and every synthesis and
randomness oracle, the stitched track is exactly the interleaving of the N
speech segments, in turn order, with exactly max(N-1, 0) pauses — one pause
strictly between each pair of adjacent segments, none before the first
segment or after the last — each pause drawn from
{200, 250, 300, 350, 400} ms; the speech and pause segments of the track are
exactly those lists; the total duration is the sum of the segment durations
plus the sum of the pause durations; and on zero turns the result is the
zero-duration empty track, independent of (hence without invoking) the
synthesis oracle. -/
theorem C7_stitcher_shape (tts : String → String → Nat) (rand : Nat → Fin 5)
    (turns : List (String × String)) :
    stitch_conversation_elevenlabs tts rand turns
        = weave (turns.map (fun p => Piece.speech p.1 p.2 (tts p.1 p.2)))
            ((List.range (turns.length - 1)).map
              (fun j => Piece.silence (natural_pause_ms (rand j)))) ∧
    (stitch_conversation_elevenlabs tts rand turns).filter isSpeech
        = turns.map (fun p => Piece.speech p.1 p.2 (tts p.1 p.2)) ∧
    (stitch_conversation_elevenlabs tts rand turns).filter isSilence
        = (List.range (turns.length - 1)).map
            (fun j => Piece.silence (natural_pause_ms (rand j))) ∧
    (∀ k : Fin 5, natural_pause_ms k ∈ [200, 250, 300, 350, 400]) ∧
    trackMs (stitch_conversation_elevenlabs tts rand turns)
        = (((stitch_conversation_elevenlabs tts rand turns).filter isSpeech).map
            pieceMs).sum
          + (((stitch_conversation_elevenlabs tts rand turns).filter isSilence).map
            pieceMs).sum ∧
    stitch_conversation_elevenlabs tts rand [] = [] ∧
    trackMs (stitch_conversation_elevenlabs tts rand []) = 0 := by
  refine ⟨?_, ?_, ?_, ?_, ?_, rfl, rfl⟩
  · rw [stitch_conversation_elevenlabs]
    rw [show silent 0 = [] from rfl, List.nil_append]
    rw [stitchGo_weave tts rand turns 0, List.range_eq_range']
  · rw [stitch_conversation_elevenlabs]
    rw [show silent 0 = [] from rfl, List.nil_append]
    exact stitchGo_filter_speech tts rand turns 0
  · rw [stitch_conversation_elevenlabs]
    rw [show silent 0 = [] from rfl, List.nil_append]
    rw [stitchGo_filter_silence tts rand turns 0, List.range_eq_range']
  · decide
  · exact trackMs_split _

/-- C8: with the credential unset (or empty, equally falsy in Python), script
generation and speech synthesis return the configuration error and submit no
remote request, whatever the oracles and inputs. -/
theorem C8_config_error_before_network :
    (∀ (llm : LLMRequest → String) (content : String) (tmpl : Option String),
      generate_script_from_content none llm content tmpl
          = (Except.error "OPENAI_API_KEY not set", []) ∧
      generate_script_from_content (some "") llm content tmpl
          = (Except.error "OPENAI_API_KEY not set", [])) ∧
    (∀ (net : TTSRequest → TTSResponse) (text sid : String),
      tts_turn_elevenlabs none net text sid
          = (Except.error "ELEVENLABS_API_KEY not set", []) ∧
      tts_turn_elevenlabs (some "") net text sid
          = (Except.error "ELEVENLABS_API_KEY not set", [])) := by
  constructor
  · intro llm content tmpl
    constructor
    · rw [generate_script_from_content.eq_def, if_pos (Or.inl rfl)]
    · rw [generate_script_from_content.eq_def, if_pos (Or.inr rfl)]
  · intro net text sid
    constructor
    · rw [tts_turn_elevenlabs, if_pos (Or.inl rfl)]
    · rw [tts_turn_elevenlabs, if_pos (Or.inr rfl)]

/-- C9 counterexample: with no style prompt the submitted prompt is not the
content alone — the code prepends a literal `Content:` header line. -/
theorem C9_counterexample :
    (generate_script_from_content (some "key") (fun _ => "resp") "abc" none).2.map
        LLMRequest.userMessage = ["Content:\nabc"] ∧
    "Content:\nabc" ≠ "abc" := by
  constructor
  · rfl
  · decide

/-- C9 (amended): with the credential present, the script generator submits
exactly one chat-completion request with model `gpt-5.2` and temperature 0.6
whose prompt is the style prefix, a blank line and a `Content:` header line
followed by the content when a non-empty prefix is given, or the `Content:`
header line followed by the content when none is given, and returns the
trimmed response text verbatim with no validation of its shape. -/
theorem C9_script_generation (k : String) (hk : k ≠ "")
    (llm : LLMRequest → String) (content : String) :
    (generate_script_from_content (some k) llm content none
        = (Except.ok (pyStrip (llm ⟨"gpt-5.2", "Content:\n" ++ content, (0.6 : ℚ)⟩)),
           [⟨"gpt-5.2", "Content:\n" ++ content, (0.6 : ℚ)⟩])) ∧
    (∀ tmpl : String, tmpl ≠ "" →
      generate_script_from_content (some k) llm content (some tmpl)
        = (Except.ok (pyStrip (llm
            ⟨"gpt-5.2", tmpl ++ "\n\nContent:\n" ++ content, (0.6 : ℚ)⟩)),
           [⟨"gpt-5.2", tmpl ++ "\n\nContent:\n" ++ content, (0.6 : ℚ)⟩])) := by
  have hcond : ¬(some k = none ∨ some k = some "") := by
    rintro (h | h)
    · cases h
    · exact hk (by injection h)
  constructor
  · rw [generate_script_from_content.eq_def, if_neg hcond]
  · intro tmpl htmpl
    rw [generate_script_from_content.eq_def, if_neg hcond]
    simp only [if_neg htmpl]

/-- Witness for C9 at concrete inputs. -/
theorem C9_script_generation_witness :
    generate_script_from_content (some "key") (fun _ => " r ") "abc" (some "style")
      = (Except.ok "r", [⟨"gpt-5.2", "style\n\nContent:\nabc", (0.6 : ℚ)⟩]) := by
  rw [(C9_script_generation "key" (by decide) (fun _ => " r ") "abc").2 "style" (by decide)]
  rfl

end RadioHost
